import Mathlib

/-!
MIDIWrap: the note-range remapper and its pitch-name codec.

A shallow embedding of `Source/PluginProcessor.cpp`:

* `wrap` (the two octave-shift loops),
* the parameter text codec `valToStr` / `strToVal`,
* `MIDIWrapAudioProcessor::processBlock` over a model of `juce::MidiBuffer`.

C++ `int` values are modelled by `Int` without overflow. The JUCE library
calls the source makes (`getMidiNoteName`, `getIntValue`, `getFloatValue`,
`jlimit`, the `MidiMessage` accessors and factories, `MidiBuffer::addEvent`)
are modelled by the definitions that carry their names.
-/

namespace MIDIWrap

/-! ## wrap -/

/-- First loop of `wrap`: `while (x < lower) x += 12;`.
The loop is total: the distance `lower - x` shrinks by 12 on every pass. -/
def wrapUp (x lower : Int) : Int :=
  if x < lower then wrapUp (x + 12) lower else x
termination_by (lower - x).toNat
decreasing_by omega

/-- Second loop of `wrap`: `while (x > upper) x -= 12;`.
The loop is total: the distance `x - upper` shrinks by 12 on every pass. -/
def wrapDown (x upper : Int) : Int :=
  if x > upper then wrapDown (x - 12) upper else x
termination_by (x - upper).toNat
decreasing_by omega

/-- The function `wrap(x, lower, upper)`: the first loop runs to completion,
then the second loop runs on its result, and that value is returned. -/
def wrap (x lower upper : Int) : Int :=
  wrapDown (wrapUp x lower) upper

/-! ## Pitch codec: `valToStr` and `strToVal`

The value the C++ lambdas exchange is a `float`. Every float the two lambdas
produce is integer-valued, so it is represented by that integer; a cast whose
exactness the model does not track yields `none` (see `exactFloat`). -/

/-- The table `sharpNoteNames` of `juce::MidiMessage::getMidiNoteName`, its
twelve entries written in two rows of six. -/
def sharpNoteNames : List String :=
  ["C", "C#", "D", "D#", "E", "F"] ++ ["F#", "G", "G#", "A", "A#", "B"]

/-- The table `flatNoteNames` of `juce::MidiMessage::getMidiNoteName`, its
twelve entries written in two rows of six. -/
def flatNoteNames : List String :=
  ["C", "Db", "D", "Eb", "E", "F"] ++ ["Gb", "G", "Ab", "A", "Bb", "B"]

/-- The library call `juce::MidiMessage::getMidiNoteName (note, useSharps,
includeOctaveNumber, octaveNumForMiddleC)`: for `note` in [0,127] the name of
pitch class `note % 12` followed, when asked for, by the decimal octave number
`note / 12 + (octaveNumForMiddleC - 5)`; the empty string for any other note. -/
def getMidiNoteName (note : Int) (useSharps includeOctaveNumber : Bool)
    (octaveNumForMiddleC : Int) : String :=
  if 0 ≤ note ∧ note < 128 then
    let s := (if useSharps then sharpNoteNames else flatNoteNames).getD (note % 12).toNat ""
    if includeOctaveNumber then s ++ toString (note / 12 + (octaveNumForMiddleC - 5)) else s
  else ""

/-- The lambda `valToStr`, on the already rounded value
`val = static_cast<int>(std::round(value))`. -/
def valToStr (val : Int) : String :=
  getMidiNoteName val true true 3

/-- A `static_cast<float>` of an `int`. Integers of magnitude up to 2^24 are
floats exactly; for larger ones the cast rounds, which is left out of the
model (`none`). -/
def exactFloat (v : Int) : Option Int :=
  if v.natAbs ≤ 16777216 then some v else none

/-- The value of a run of decimal digits. -/
def digitsValue (ds : List Char) : Nat :=
  ds.foldl (fun v c => v * 10 + (c.toNat - 48)) 0

/-- The library call `String::getIntValue()` on a text made of decimal digits
only, which is what its one call site passes: the decimal value (0 for the
empty text). Texts with any other character are left out of the model
(`none`); so are, through `exactFloat`, values too large for an `int`. -/
def getIntValue (s : List Char) : Option Int :=
  if s.all Char.isDigit then some (digitsValue s : Int) else none

/-- Whether the number reader of `String::getFloatValue()` simply stops at
the start of `rest` after the integer digits: at the end of the text, or at an
ASCII character that is neither white space (the blank and the characters 9
to 13, which the reader skips) nor one that could continue a number (`.` for a
fraction, `e` for an exponent, `n` and `i` for "nan", "inf"). -/
def stopsNumber (rest : List Char) : Bool :=
  match rest with
  | [] => true
  | c :: _ => decide (c.toNat < 128) &&
      !(c == ' ' || (decide (9 ≤ c.toNat) && decide (c.toNat ≤ 13))) &&
      !(c == '.' || c == 'e' || c == 'n' || c == 'i')

/-- The unsigned part of `static_cast<int>(s.getFloatValue())`: the value of
the leading digit run (0 when there is none). `none` when the text goes on in a
way the model does not follow (`stopsNumber`), or when the digits exceed 2^24
and the intermediate `float` would no longer be exact. -/
def readDigits (s : List Char) : Option Int :=
  let ds := s.takeWhile Char.isDigit
  let rest := s.dropWhile Char.isDigit
  if stopsNumber rest && decide (digitsValue ds ≤ 16777216) then
    some (digitsValue ds : Int)
  else none

/-- The expression `static_cast<int>(s.getFloatValue())` on the texts the
model follows: an optional sign, then decimal digits, read up to the first
character that is not a digit. A text without digits reads as 0 (the library
returns 0.0 when no number is found). -/
def getFloatValueAsInt (s : List Char) : Option Int :=
  match s with
  | '-' :: rest => (readDigits rest).map (fun v => -v)
  | '+' :: rest => readDigits rest
  | _ => readDigits s

/-- The template `juce::jlimit (lowerLimit, upperLimit, valueToConstrain)`. -/
def jlimit (lowerLimit upperLimit valueToConstrain : Int) : Int :=
  if valueToConstrain < lowerLimit then lowerLimit
  else if upperLimit < valueToConstrain then upperLimit
  else valueToConstrain

/-- The statement after the `for` loop of `strToVal`, reached when the text
ends before the state `Parse` has run:
`return juce::jlimit(0.f, 127.f, static_cast<float>(val + 24));`. -/
def afterLoop (val : Int) : Option Int :=
  (exactFloat (val + 24)).map (jlimit 0 127)

/-- One pass of the `for` loop of `strToVal` in state `State::Parse`, at
index `i` with the accumulated `val`. This state always returns. The inner
`while (val < 0) val += 12;` is the loop `wrapUp val 0`. -/
def parseState (text : List Char) (val : Int) (i : Nat) : Option Int :=
  if i < text.length then
    match getFloatValueAsInt (text.drop i) with
    | none => none
    | some newVal =>
      if newVal = -1 then some 69
      else exactFloat (wrapUp (val + (24 + newVal * 12)) 0)
  else afterLoop val

/-- One pass of the `for` loop of `strToVal` in state `State::FlatOrSharp`,
followed by the rest of the loop, which continues in state `Parse`. In the
last branch `--i` and the loop's `++i` leave the index where it is, so the
same character is looked at again. -/
def flatOrSharpState (text : List Char) (val : Int) (i : Nat) : Option Int :=
  if h : i < text.length then
    let chr := text[i]
    if chr = '#' then parseState text (val + 1) (i + 1)
    else if chr = 'b' then parseState text (val - 1) (i + 1)
    else parseState text val i
  else afterLoop val

/-- One pass of the `for` loop of `strToVal` in state `State::Pitchclass`
(the state the loop starts in, with `val = -1`), followed by the rest of the
loop, which continues in state `FlatOrSharp`. The enumerators of `pitchclass`
are C = 0, D = 2, E = 4, F = 5, G = 7, A = 9, B = 11. -/
def pitchclassState (text : List Char) (val : Int) (i : Nat) : Option Int :=
  if h : i < text.length then
    let chr := text[i]
    if chr = 'c' then flatOrSharpState text 0 (i + 1)
    else if chr = 'd' then flatOrSharpState text 2 (i + 1)
    else if chr = 'e' then flatOrSharpState text 4 (i + 1)
    else if chr = 'f' then flatOrSharpState text 5 (i + 1)
    else if chr = 'g' then flatOrSharpState text 7 (i + 1)
    else if chr = 'a' then flatOrSharpState text 9 (i + 1)
    else if chr = 'b' then flatOrSharpState text 11 (i + 1)
    else some 69
  else afterLoop val

/-- The first loop of `strToVal`: `hasLetters` becomes true at every character
that is not one of `0` to `9`. -/
def hasLetters (text : List Char) : Bool :=
  text.foldl (fun has chr => if !chr.isDigit then true else has) false

/-- The lambda `strToVal`. `text` is `str.toLowerCase()`; the state of the
second loop moves Pitchclass, FlatOrSharp, Parse, one step per pass, so the
loop is unrolled into the three functions above. -/
def strToVal (str : String) : Option Int :=
  let text := str.toList.map Char.toLower
  if !hasLetters text then (getIntValue str.toList).bind exactFloat
  else pitchclassState text (-1) 0

/-! ## MIDI messages and buffers -/

/-- A `juce::MidiMessage`, by the high nibble of its status byte: `0x9n`
(`rawNoteOn`), `0x8n` (`rawNoteOff`), or anything else (`other`, bytes kept as
they are). `chan` is the low nibble of the status byte, `note` and `vel` are
the two 7-bit data bytes. -/
inductive MidiMessage where
  | rawNoteOn (chan : Fin 16) (note vel : Fin 128)
  | rawNoteOff (chan : Fin 16) (note vel : Fin 128)
  | other (bytes : List Nat)
deriving DecidableEq, Repr

/-- The data byte the note factories store for `noteNumber`:
`noteNumber & 127`, which for a two's complement `int` is `noteNumber` modulo
128. -/
def noteByte (noteNumber : Int) : Fin 128 :=
  Fin.ofNat (noteNumber % 128).toNat

namespace MidiMessage

/-- The call `isNoteOn()` (argument `returnTrueForVelocity0 = false`): status
`0x9n` with a velocity other than 0. -/
def isNoteOn : MidiMessage → Bool
  | rawNoteOn _ _ vel => vel != 0
  | _ => false

/-- The call `isNoteOff()` (argument `returnTrueForNoteOnVelocity0 = true`):
status `0x8n`, or status `0x9n` with velocity 0. -/
def isNoteOff : MidiMessage → Bool
  | rawNoteOff _ _ _ => true
  | rawNoteOn _ _ vel => vel == 0
  | other _ => false

/-- The call `getNoteNumber()`: the first data byte. -/
def getNoteNumber : MidiMessage → Int
  | rawNoteOn _ note _ => note.val
  | rawNoteOff _ note _ => note.val
  | other bytes => bytes.getD 1 0

/-- The call `getChannel()`: the low nibble of the status byte plus one, and 0
for a message whose status byte is `0xf0` or above. -/
def getChannel : MidiMessage → Int
  | rawNoteOn chan _ _ => chan.val + 1
  | rawNoteOff chan _ _ => chan.val + 1
  | other bytes => if bytes.headD 0 / 16 % 16 = 15 then 0 else (bytes.headD 0 % 16 + 1 : Nat)

/-- The call `getVelocity()`: the second data byte of a note message, else 0. -/
def getVelocity : MidiMessage → Nat
  | rawNoteOn _ _ vel => vel.val
  | rawNoteOff _ _ vel => vel.val
  | other _ => 0

/-- The factory `MidiMessage::noteOn (channel, noteNumber, (uint8) velocity)`:
status byte `0x90 | jlimit (0, 15, channel - 1)`, data bytes
`noteNumber & 127` and `jmin (velocity, 127)`. -/
def noteOn (channel noteNumber : Int) (velocity : Nat) : MidiMessage :=
  rawNoteOn (Fin.ofNat (jlimit 0 15 (channel - 1)).toNat)
    (noteByte noteNumber) (Fin.ofNat (min velocity 127))

/-- The factory `MidiMessage::noteOff (channel, noteNumber, (uint8) velocity)`:
status byte `0x80 | jlimit (0, 15, channel - 1)`, data bytes
`noteNumber & 127` and `jmin (velocity, 127)`. The two-argument overload
`noteOff (channel, noteNumber)` is this one with velocity 0. -/
def noteOff (channel noteNumber : Int) (velocity : Nat) : MidiMessage :=
  rawNoteOff (Fin.ofNat (jlimit 0 15 (channel - 1)).toNat)
    (noteByte noteNumber) (Fin.ofNat (min velocity 127))

end MidiMessage

/-- An entry of a `juce::MidiBuffer` (`MidiMessageMetadata`): a message and
its sample position inside the block. -/
structure MidiMessageMetadata where
  getMessage : MidiMessage
  samplePosition : Int
deriving DecidableEq, Repr

/-- A `juce::MidiBuffer`: its entries in storage order, which is the order
iteration visits them in. -/
abbrev MidiBuffer := List MidiMessageMetadata

/-- The call `MidiBuffer::addEvent (m, sampleNumber)`: the new entry goes in
front of the first stored entry whose sample position is greater than
`sampleNumber`, at the end if there is none. The message is stored with the
bytes it has. -/
def MidiBuffer.addEvent (buf : MidiBuffer) (m : MidiMessage) (sampleNumber : Int) :
    MidiBuffer :=
  match buf with
  | [] => [⟨m, sampleNumber⟩]
  | e :: rest =>
    if e.samplePosition ≤ sampleNumber then e :: MidiBuffer.addEvent rest m sampleNumber
    else ⟨m, sampleNumber⟩ :: e :: rest

/-- A buffer as `addEvent` keeps it: sample positions never decrease. -/
def MidiBuffer.Ordered (buf : MidiBuffer) : Prop :=
  buf.Pairwise (fun a b => a.samplePosition ≤ b.samplePosition)

/-! ## processBlock -/

/-- The members of `MIDIWrapAudioProcessor` that `processBlock` reads and
writes: the cached bounds and the reusable output buffer. The constructor
sets the bounds to 0 and 127. -/
structure MIDIWrapAudioProcessor where
  lowerLimit : Int
  upperLimit : Int
  midiBufferOut : MidiBuffer
deriving DecidableEq, Repr

/-- The "all notes off" loop nest of `processBlock`:
`for ch = 1..16, for note = 0..127: midiBufferOut.addEvent (noteOff (ch, note), 0)`. -/
def allNotesOff (midiBufferOut : MidiBuffer) : MidiBuffer :=
  (List.range' 1 16).foldl
    (fun (buf : MidiBuffer) (ch : Nat) => (List.range 128).foldl
      (fun (buf : MidiBuffer) (note : Nat) =>
        buf.addEvent (MidiMessage.noteOff (ch : Int) (note : Int) 0) 0) buf)
    midiBufferOut

/-- The body of the loop `for (auto midiMessage : midiMessages)`. -/
def processEvent (lowerLimit upperLimit : Int) (midiBufferOut : MidiBuffer)
    (midiMessage : MidiMessageMetadata) : MidiBuffer :=
  let msg := midiMessage.getMessage
  let sampleNumber := midiMessage.samplePosition
  if msg.isNoteOn then
    let noteNumber := wrap midiMessage.getMessage.getNoteNumber lowerLimit upperLimit
    let msg := MidiMessage.noteOn msg.getChannel noteNumber msg.getVelocity
    midiBufferOut.addEvent msg sampleNumber
  else if msg.isNoteOff then
    let noteNumber := wrap midiMessage.getMessage.getNoteNumber lowerLimit upperLimit
    let msg := MidiMessage.noteOff msg.getChannel noteNumber msg.getVelocity
    midiBufferOut.addEvent msg sampleNumber
  else
    midiBufferOut.addEvent msg sampleNumber

/-- The method `MIDIWrapAudioProcessor::processBlock`, as a function from the
processor state and the block (its sample count, the two rounded parameter
values `nLowerLimit`, `nUpperLimit`, and the MIDI buffer) to the new state and
the MIDI buffer handed back. The audio samples are not part of the model. The
final `swapWith` leaves the block's input in `midiBufferOut`. -/
def processBlock (p : MIDIWrapAudioProcessor) (numSamples : Nat)
    (nLowerLimit nUpperLimit : Int) (midiMessages : MidiBuffer) :
    MIDIWrapAudioProcessor × MidiBuffer :=
  if numSamples = 0 then (p, midiMessages)
  else if p.lowerLimit ≠ nLowerLimit ∨ p.upperLimit ≠ nUpperLimit then
    (⟨nLowerLimit, nUpperLimit, midiMessages⟩,
      midiMessages.foldl (processEvent nLowerLimit nUpperLimit) (allNotesOff []))
  else
    (⟨p.lowerLimit, p.upperLimit, midiMessages⟩,
      midiMessages.foldl (processEvent p.lowerLimit p.upperLimit) [])

/-! ## What the claims compare the code with -/

/-- The rewritten version of one message under the bounds `lower`, `upper`: a
note message is rebuilt with the wrapped note number, any other message is
kept. -/
def rewriteMessage (lower upper : Int) (msg : MidiMessage) : MidiMessage :=
  if msg.isNoteOn then
    MidiMessage.noteOn msg.getChannel (wrap msg.getNoteNumber lower upper) msg.getVelocity
  else if msg.isNoteOff then
    MidiMessage.noteOff msg.getChannel (wrap msg.getNoteNumber lower upper) msg.getVelocity
  else msg

/-- The rewritten version of one buffer entry: the rewritten message at the
entry's own sample position. -/
def rewriteEvent (lower upper : Int) (e : MidiMessageMetadata) : MidiMessageMetadata :=
  ⟨rewriteMessage lower upper e.getMessage, e.samplePosition⟩

/-- The note-off sweep in the order the specification gives: channel-major
(status nibbles 0 to 15, that is channels 1 to 16), then notes 0 to 127, each
a NoteOff with velocity 0 at sample position 0. -/
def noteOffSweep : List MidiMessageMetadata :=
  (List.finRange 16).flatMap fun chan =>
    (List.finRange 128).map fun note => ⟨MidiMessage.rawNoteOff chan note 0, 0⟩

/-! # Theorems -/

/-! ### Loop lemmas -/

theorem wrapUp_of_ge {x lower : Int} (h : lower ≤ x) : wrapUp x lower = x := by
  rw [wrapUp, if_neg (by omega)]

theorem wrapUp_of_lt {x lower : Int} (h : x < lower) :
    wrapUp x lower = wrapUp (x + 12) lower := by
  rw [wrapUp, if_pos h]

theorem wrapDown_of_le {x upper : Int} (h : x ≤ upper) : wrapDown x upper = x := by
  rw [wrapDown, if_neg (by omega)]

theorem wrapDown_of_gt {x upper : Int} (h : upper < x) :
    wrapDown x upper = wrapDown (x - 12) upper := by
  rw [wrapDown, if_pos h]

/-- What the first loop returns: a value at or above `lower`, reached from `x`
by adding `12 * k`, and below `lower + 12` whenever the loop ran at all. -/
theorem wrapUp_spec (x lower : Int) :
    lower ≤ wrapUp x lower ∧ (x < lower → wrapUp x lower < lower + 12) ∧
      ∃ k : Nat, wrapUp x lower = x + 12 * k := by
  induction x, lower using wrapUp.induct with
  | case1 x lower h ih =>
    obtain ⟨h1, h2, k, hk⟩ := ih
    rw [wrapUp_of_lt h]
    refine ⟨h1, fun _ => ?_, k + 1, ?_⟩
    · by_cases hx : x + 12 < lower
      · exact h2 hx
      · rw [wrapUp_of_ge (by omega)]; omega
    · rw [hk]; push_cast; ring
  | case2 x lower h =>
    rw [wrapUp_of_ge (by omega)]
    exact ⟨by omega, fun hx => absurd hx h, 0, by simp⟩

/-- What the second loop returns: a value at or below `upper`, reached from `x`
by subtracting `12 * k`, and above `upper - 12` whenever the loop ran at all. -/
theorem wrapDown_spec (x upper : Int) :
    wrapDown x upper ≤ upper ∧ (upper < x → upper - 12 < wrapDown x upper) ∧
      ∃ k : Nat, wrapDown x upper = x - 12 * k := by
  induction x, upper using wrapDown.induct with
  | case1 x upper h ih =>
    obtain ⟨h1, h2, k, hk⟩ := ih
    rw [wrapDown_of_gt h]
    refine ⟨h1, fun _ => ?_, k + 1, ?_⟩
    · by_cases hx : upper < x - 12
      · exact h2 hx
      · rw [wrapDown_of_le (by omega)]; omega
    · rw [hk]; push_cast; ring
  | case2 x upper h =>
    rw [wrapDown_of_le (by omega)]
    exact ⟨by omega, fun hx => absurd hx h, 0, by simp⟩

/-! ### Claims about wrap -/

/-- C1 (counterexample): with the one-note range [60, 60] the note 61 is sent
to 49, which lies below the lower bound, although 0 ≤ 60 ≤ 60 ≤ 127 and
0 ≤ 61 ≤ 127. -/
theorem wrap_narrow_range_escapes :
    wrap 61 60 60 = 49 ∧ ¬ ((60 : Int) ≤ wrap 61 60 60 ∧ wrap 61 60 60 ≤ 60) := by
  have h49 : wrap 61 60 60 = 49 := by simp [wrap, wrapUp, wrapDown]
  rw [h49]
  exact ⟨rfl, by decide⟩

/-- C1 (amended): for bounds 0 ≤ lower ≤ upper ≤ 127 that span at least a full
octave (upper - lower ≥ 11) and every note 0 ≤ n ≤ 127, `wrap n lower upper`
lies in the closed interval [lower, upper]. -/
theorem wrap_in_range_of_octave (lower upper n : Int)
    (_hl : 0 ≤ lower) (_hlu : lower ≤ upper) (_hu : upper ≤ 127)
    (hspan : 11 ≤ upper - lower) (_hn0 : 0 ≤ n) (_hn : n ≤ 127) :
    lower ≤ wrap n lower upper ∧ wrap n lower upper ≤ upper := by
  unfold wrap
  obtain ⟨hge, -, -⟩ := wrapUp_spec n lower
  obtain ⟨hle, hgt, -⟩ := wrapDown_spec (wrapUp n lower) upper
  refine ⟨?_, hle⟩
  by_cases hy : wrapUp n lower ≤ upper
  · rw [wrapDown_of_le hy]; exact hge
  · have := hgt (by omega)
    omega

/-- C1 (witness): the amended claim at the bounds [60, 72] and the note 50. -/
theorem wrap_in_range_of_octave_witness :
    (60 : Int) ≤ wrap 50 60 72 ∧ wrap 50 60 72 ≤ 72 :=
  wrap_in_range_of_octave 60 72 50 (by decide) (by decide) (by decide) (by decide)
    (by decide) (by decide)

/-- C6: `wrap n lower upper - n` is an integer multiple of 12, for all
integers (in particular for 0 ≤ lower ≤ upper ≤ 127 and 0 ≤ n ≤ 127): the
pitch class of the note is preserved. -/
theorem wrap_sub_multiple_of_twelve (n lower upper : Int) :
    ∃ k : Int, wrap n lower upper - n = 12 * k := by
  unfold wrap
  obtain ⟨-, -, a, ha⟩ := wrapUp_spec n lower
  obtain ⟨-, -, b, hb⟩ := wrapDown_spec (wrapUp n lower) upper
  exact ⟨a - b, by rw [hb, ha]; ring⟩

/-- C7: `wrap` is the identity on a note already in range: if
lower ≤ n ≤ upper then `wrap n lower upper = n` (so `wrap n 0 127 = n` for
every n in [0,127], and `wrap 64 60 72 = 64`). -/
theorem wrap_eq_self_of_mem_range (n lower upper : Int)
    (hl : lower ≤ n) (hu : n ≤ upper) : wrap n lower upper = n := by
  unfold wrap
  rw [wrapUp_of_ge hl, wrapDown_of_le hu]

/-- C7 (witness): the claim at `wrap 64 60 72` and at `wrap 127 0 127`. -/
theorem wrap_eq_self_of_mem_range_witness :
    wrap 64 60 72 = 64 ∧ wrap 127 0 127 = 127 :=
  ⟨wrap_eq_self_of_mem_range 64 60 72 (by decide) (by decide),
   wrap_eq_self_of_mem_range 127 0 127 (by decide) (by decide)⟩


/-! ### The MIDI buffer -/

theorem MidiBuffer.addEvent_eq_append (buf : MidiBuffer) (m : MidiMessage) (t : Int)
    (h : ∀ e ∈ buf, e.samplePosition ≤ t) : buf.addEvent m t = buf ++ [⟨m, t⟩] := by
  induction buf with
  | nil => rfl
  | cons e rest ih =>
    have he : e.samplePosition ≤ t := h e (List.mem_cons_self _ _)
    simp only [MidiBuffer.addEvent, if_pos he, List.cons_append]
    rw [ih (fun x hx => h x (List.mem_cons_of_mem _ hx))]

theorem MidiBuffer.mem_addEvent (buf : MidiBuffer) (m : MidiMessage) (t : Int)
    (x : MidiMessageMetadata) : x ∈ buf.addEvent m t ↔ x = ⟨m, t⟩ ∨ x ∈ buf := by
  induction buf with
  | nil => simp [MidiBuffer.addEvent]
  | cons e rest ih =>
    simp only [MidiBuffer.addEvent]
    split
    · simp only [List.mem_cons, ih]; tauto
    · simp only [List.mem_cons]

theorem MidiBuffer.length_addEvent (buf : MidiBuffer) (m : MidiMessage) (t : Int) :
    (buf.addEvent m t).length = buf.length + 1 := by
  induction buf with
  | nil => rfl
  | cons e rest ih =>
    simp only [MidiBuffer.addEvent]
    split
    · simp [ih]
    · simp

theorem MidiBuffer.ordered_addEvent (buf : MidiBuffer) (m : MidiMessage) (t : Int)
    (h : MidiBuffer.Ordered buf) : MidiBuffer.Ordered (buf.addEvent m t) := by
  induction buf with
  | nil => simp [MidiBuffer.addEvent, MidiBuffer.Ordered]
  | cons e rest ih =>
    have hrel : ∀ x ∈ rest, e.samplePosition ≤ x.samplePosition :=
      fun x hx => List.rel_of_pairwise_cons h hx
    have htail : MidiBuffer.Ordered rest := List.Pairwise.of_cons h
    simp only [MidiBuffer.addEvent]
    split
    · rename_i hle
      refine List.Pairwise.cons ?_ (ih htail)
      intro x hx
      rcases (MidiBuffer.mem_addEvent rest m t x).1 hx with hx | hx
      · rw [hx]; exact hle
      · exact hrel x hx
    · rename_i hgt
      refine List.Pairwise.cons ?_ h
      intro x hx
      rcases List.mem_cons.1 hx with hx | hx
      · rw [hx]; exact le_of_lt (not_le.1 hgt)
      · exact le_trans (le_of_lt (not_le.1 hgt)) (hrel x hx)

/-! ### The note-off sweep -/

theorem noteOff_of_fin (chan : Fin 16) (note : Fin 128) :
    MidiMessage.noteOff ((1 + chan.val : Nat) : Int) ((note.val : Nat) : Int) 0
      = MidiMessage.rawNoteOff chan note 0 := by
  obtain ⟨c, hc⟩ := chan
  obtain ⟨n, hn⟩ := note
  simp only [MidiMessage.noteOff, jlimit, MidiMessage.rawNoteOff.injEq]
  refine ⟨?_, ?_, ?_⟩
  · apply Fin.ext
    simp only [Fin.ofNat]
    split_ifs <;> omega
  · apply Fin.ext
    simp only [noteByte, Fin.ofNat]
    omega
  · rfl

theorem foldl_addEvent_zero {α : Type} (f : α → MidiMessage) (l : List α) (buf : MidiBuffer)
    (h : ∀ e ∈ buf, e.samplePosition ≤ 0) :
    l.foldl (fun b x => MidiBuffer.addEvent b (f x) 0) buf
      = buf ++ l.map (fun x => ⟨f x, 0⟩) := by
  induction l generalizing buf with
  | nil => simp
  | cons a l ih =>
    simp only [List.foldl_cons, List.map_cons]
    rw [MidiBuffer.addEvent_eq_append buf _ _ h, ih]
    · simp
    · intro e he
      rcases List.mem_append.1 he with he | he
      · exact h e he
      · simp only [List.mem_singleton] at he
        rw [he]

theorem sweep_channel_eq (chan : Fin 16) :
    (List.range 128).map (fun note : Nat =>
        (⟨MidiMessage.noteOff ((1 + chan.val : Nat) : Int) (note : Int) 0, 0⟩ :
          MidiMessageMetadata))
      = (List.finRange 128).map fun note => ⟨MidiMessage.rawNoteOff chan note 0, 0⟩ := by
  rw [← List.map_coe_finRange 128, List.map_map]
  apply List.map_congr_left
  intro note _
  simp only [Function.comp_apply, noteOff_of_fin]

theorem sweep_eq_noteOffSweep :
    (List.range' 1 16).flatMap (fun ch : Nat => (List.range 128).map (fun note : Nat =>
        (⟨MidiMessage.noteOff (ch : Int) (note : Int) 0, 0⟩ : MidiMessageMetadata)))
      = noteOffSweep := by
  rw [List.range'_eq_map_range, ← List.map_coe_finRange 16, List.map_map, List.flatMap_map]
  unfold noteOffSweep
  apply List.flatMap_congr
  intro chan _
  exact sweep_channel_eq chan

theorem noteOffSweep_samplePosition (e : MidiMessageMetadata) (h : e ∈ noteOffSweep) :
    e.samplePosition = 0 ∧ e.getMessage.isNoteOff = true ∧ e.getMessage.getVelocity = 0 := by
  simp only [noteOffSweep, List.mem_flatMap, List.mem_map] at h
  obtain ⟨chan, -, note, -, rfl⟩ := h
  exact ⟨rfl, rfl, rfl⟩

theorem noteOffSweep_length : noteOffSweep.length = 2048 := by
  simp [noteOffSweep, List.length_flatMap, Function.comp_def]

theorem allNotesOff_eq_append (buf : MidiBuffer) (h : ∀ e ∈ buf, e.samplePosition ≤ 0) :
    allNotesOff buf = buf ++ noteOffSweep := by
  rw [← sweep_eq_noteOffSweep]
  unfold allNotesOff
  generalize List.range' 1 16 = chans
  induction chans generalizing buf with
  | nil => simp
  | cons ch chans ih =>
    simp only [List.foldl_cons, List.flatMap_cons]
    rw [foldl_addEvent_zero (fun note : Nat => MidiMessage.noteOff (ch : Int) (note : Int) 0) _ buf h,
      ih, List.append_assoc]
    intro e he
    rcases List.mem_append.1 he with he | he
    · exact h e he
    · simp only [List.mem_map] at he
      obtain ⟨_, -, rfl⟩ := he
      exact le_refl _

/-! ### processBlock -/

theorem processEvent_eq_addEvent (lower upper : Int) (out : MidiBuffer)
    (e : MidiMessageMetadata) :
    processEvent lower upper out e
      = out.addEvent (rewriteMessage lower upper e.getMessage) e.samplePosition := by
  simp only [processEvent, rewriteMessage]
  split_ifs <;> rfl

theorem mem_foldl_processEvent (lower upper : Int) (l : List MidiMessageMetadata)
    (out : MidiBuffer) (x : MidiMessageMetadata) :
    x ∈ l.foldl (processEvent lower upper) out
      ↔ x ∈ out ∨ x ∈ l.map (rewriteEvent lower upper) := by
  induction l generalizing out with
  | nil => simp
  | cons e l ih =>
    simp only [List.foldl_cons, List.map_cons, List.mem_cons, ih, processEvent_eq_addEvent,
      MidiBuffer.mem_addEvent, rewriteEvent]
    tauto

theorem length_foldl_processEvent (lower upper : Int) (l : List MidiMessageMetadata)
    (out : MidiBuffer) :
    (l.foldl (processEvent lower upper) out).length = out.length + l.length := by
  induction l generalizing out with
  | nil => simp
  | cons e l ih =>
    simp only [List.foldl_cons, ih, processEvent_eq_addEvent, MidiBuffer.length_addEvent,
      List.length_cons]
    omega

theorem foldl_processEvent_eq_append (lower upper : Int) (l : List MidiMessageMetadata)
    (out : MidiBuffer) (hord : MidiBuffer.Ordered l)
    (hout : ∀ e ∈ out, ∀ x ∈ l, e.samplePosition ≤ x.samplePosition) :
    l.foldl (processEvent lower upper) out = out ++ l.map (rewriteEvent lower upper) := by
  induction l generalizing out with
  | nil => simp
  | cons a l ih =>
    have hrel : ∀ x ∈ l, a.samplePosition ≤ x.samplePosition :=
      fun x hx => List.rel_of_pairwise_cons hord hx
    have htail : MidiBuffer.Ordered l := List.Pairwise.of_cons hord
    simp only [List.foldl_cons, List.map_cons, processEvent_eq_addEvent]
    rw [MidiBuffer.addEvent_eq_append out _ _
      (fun e he => hout e he a (List.mem_cons_self _ _)), ih _ htail]
    · simp [rewriteEvent]
    · intro e he x hx
      rcases List.mem_append.1 he with he | he
      · exact hout e he x (List.mem_cons_of_mem _ hx)
      · simp only [List.mem_singleton] at he
        rw [he]
        exact hrel x hx

theorem noteByte_val (n : Int) : ((noteByte n).val : Int) = n % 128 := by
  simp only [noteByte, Fin.ofNat]
  omega

theorem noteByte_of_range (n : Int) (h0 : 0 ≤ n) (h1 : n ≤ 127) :
    ((noteByte n).val : Int) = n := by
  rw [noteByte_val]
  omega

theorem noteOn_of_fin (chan : Fin 16) (n : Int) (vel : Fin 128) :
    MidiMessage.noteOn ((chan.val : Int) + 1) n vel.val
      = MidiMessage.rawNoteOn chan (noteByte n) vel := by
  obtain ⟨c, hc⟩ := chan
  obtain ⟨v, hv⟩ := vel
  simp only [MidiMessage.noteOn, jlimit, MidiMessage.rawNoteOn.injEq, true_and]
  refine ⟨?_, ?_⟩ <;> apply Fin.ext <;> simp only [Fin.ofNat]
  · split_ifs <;> omega
  · omega

theorem noteOff_of_fin_vel (chan : Fin 16) (n : Int) (vel : Fin 128) :
    MidiMessage.noteOff ((chan.val : Int) + 1) n vel.val
      = MidiMessage.rawNoteOff chan (noteByte n) vel := by
  obtain ⟨c, hc⟩ := chan
  obtain ⟨v, hv⟩ := vel
  simp only [MidiMessage.noteOff, jlimit, MidiMessage.rawNoteOff.injEq, true_and]
  refine ⟨?_, ?_⟩ <;> apply Fin.ext <;> simp only [Fin.ofNat]
  · split_ifs <;> omega
  · omega

/-- What the loop body makes of a note message: the same kind of message
(`isNoteOn`, `isNoteOff` unchanged), the same channel and velocity, and as
note number the wrapped one modulo 128. -/
theorem rewriteMessage_note (lower upper : Int) (msg : MidiMessage)
    (h : msg.isNoteOn = true ∨ msg.isNoteOff = true) :
    (rewriteMessage lower upper msg).isNoteOn = msg.isNoteOn ∧
    (rewriteMessage lower upper msg).isNoteOff = msg.isNoteOff ∧
    (rewriteMessage lower upper msg).getChannel = msg.getChannel ∧
    (rewriteMessage lower upper msg).getVelocity = msg.getVelocity ∧
    (rewriteMessage lower upper msg).getNoteNumber
      = wrap msg.getNoteNumber lower upper % 128 := by
  cases msg with
  | rawNoteOn chan note vel =>
    by_cases hv0 : vel = 0
    · subst hv0
      have : rewriteMessage lower upper (MidiMessage.rawNoteOn chan note 0)
          = MidiMessage.rawNoteOff chan (noteByte (wrap note.val lower upper)) 0 := by
        simp only [rewriteMessage, MidiMessage.isNoteOn, MidiMessage.isNoteOff,
          MidiMessage.getChannel, MidiMessage.getVelocity, MidiMessage.getNoteNumber]
        exact noteOff_of_fin_vel chan _ 0
      rw [this]
      simp [MidiMessage.isNoteOn, MidiMessage.isNoteOff, MidiMessage.getChannel,
        MidiMessage.getVelocity, MidiMessage.getNoteNumber, noteByte_val]
    · have : rewriteMessage lower upper (MidiMessage.rawNoteOn chan note vel)
          = MidiMessage.rawNoteOn chan (noteByte (wrap note.val lower upper)) vel := by
        simp only [rewriteMessage, MidiMessage.isNoteOn, MidiMessage.getChannel,
          MidiMessage.getVelocity, MidiMessage.getNoteNumber, bne_iff_ne, ne_eq, hv0,
          not_false_eq_true, if_true]
        exact noteOn_of_fin chan _ vel
      rw [this]
      simp [MidiMessage.isNoteOn, MidiMessage.isNoteOff, MidiMessage.getChannel,
        MidiMessage.getVelocity, MidiMessage.getNoteNumber, noteByte_val]
  | rawNoteOff chan note vel =>
    have : rewriteMessage lower upper (MidiMessage.rawNoteOff chan note vel)
        = MidiMessage.rawNoteOff chan (noteByte (wrap note.val lower upper)) vel := by
      simp only [rewriteMessage, MidiMessage.isNoteOn, MidiMessage.isNoteOff,
        MidiMessage.getChannel, MidiMessage.getVelocity, MidiMessage.getNoteNumber]
      exact noteOff_of_fin_vel chan _ vel
    rw [this]
    simp [MidiMessage.isNoteOn, MidiMessage.isNoteOff, MidiMessage.getChannel,
      MidiMessage.getVelocity, MidiMessage.getNoteNumber, noteByte_val]
  | other bytes => simp [MidiMessage.isNoteOn, MidiMessage.isNoteOff] at h

theorem rewriteMessage_other (lower upper : Int) (msg : MidiMessage)
    (hon : msg.isNoteOn = false) (hoff : msg.isNoteOff = false) :
    rewriteMessage lower upper msg = msg := by
  simp [rewriteMessage, hon, hoff]

theorem processBlock_output_of_pos (p : MIDIWrapAudioProcessor) (numSamples : Nat)
    (nLowerLimit nUpperLimit : Int) (midiMessages : MidiBuffer) (hpos : 0 < numSamples) :
    (processBlock p numSamples nLowerLimit nUpperLimit midiMessages).1.lowerLimit = nLowerLimit ∧
    (processBlock p numSamples nLowerLimit nUpperLimit midiMessages).1.upperLimit = nUpperLimit ∧
    (processBlock p numSamples nLowerLimit nUpperLimit midiMessages).2
      = midiMessages.foldl (processEvent nLowerLimit nUpperLimit)
          (if p.lowerLimit ≠ nLowerLimit ∨ p.upperLimit ≠ nUpperLimit then allNotesOff []
            else []) := by
  unfold processBlock
  rw [if_neg (by omega)]
  by_cases h : p.lowerLimit ≠ nLowerLimit ∨ p.upperLimit ≠ nUpperLimit
  · simp only [if_pos h, and_self]
  · simp only [if_neg h]
    have h1 : p.lowerLimit = nLowerLimit := by
      by_contra hne; exact h (Or.inl hne)
    have h2 : p.upperLimit = nUpperLimit := by
      by_contra hne; exact h (Or.inr hne)
    simp only [h1, h2, and_self]

/-! ### Claims about processBlock -/

theorem MidiBuffer.addEvent_append_of_le (front back : MidiBuffer) (m : MidiMessage) (t : Int)
    (h : ∀ e ∈ front, e.samplePosition ≤ t) :
    MidiBuffer.addEvent (front ++ back) m t = front ++ MidiBuffer.addEvent back m t := by
  induction front with
  | nil => rfl
  | cons e rest ih =>
    have he : e.samplePosition ≤ t := h e (List.mem_cons_self _ _)
    simp only [List.cons_append, MidiBuffer.addEvent, if_pos he]
    exact congrArg (List.cons e) (ih (fun x hx => h x (List.mem_cons_of_mem _ hx)))

theorem MidiBuffer.addEvent_eq_cons (buf : MidiBuffer) (m : MidiMessage) (t : Int)
    (h : ∀ e ∈ buf, t < e.samplePosition) : buf.addEvent m t = ⟨m, t⟩ :: buf := by
  cases buf with
  | nil => rfl
  | cons e rest =>
    have he : ¬ e.samplePosition ≤ t := not_le.2 (h e (List.mem_cons_self _ _))
    simp only [MidiBuffer.addEvent, if_neg he]

theorem rewriteMessage_other_bytes (lower upper : Int) (bytes : List Nat) :
    rewriteMessage lower upper (MidiMessage.other bytes) = MidiMessage.other bytes :=
  rewriteMessage_other lower upper _ rfl rfl

/-- C3 (counterexample): in a block with changed bounds whose two control
changes arrive at sample positions 5 and 3, the output after the sweep holds
them in the order 3, 5, not in their input order; and a control change at
sample position -1 comes out in front of the sweep. -/
theorem processBlock_output_not_in_input_order :
    (processBlock ⟨0, 127, []⟩ 1 60 72
        [⟨MidiMessage.other [176, 1, 2], 5⟩, ⟨MidiMessage.other [176, 3, 4], 3⟩]).2
      = noteOffSweep ++
          [⟨MidiMessage.other [176, 3, 4], 3⟩, ⟨MidiMessage.other [176, 1, 2], 5⟩] ∧
    (processBlock ⟨0, 127, []⟩ 1 60 72
        [⟨MidiMessage.other [176, 1, 2], 5⟩, ⟨MidiMessage.other [176, 3, 4], 3⟩]).2
      ≠ noteOffSweep ++
          [⟨MidiMessage.other [176, 1, 2], 5⟩, ⟨MidiMessage.other [176, 3, 4], 3⟩].map
            (rewriteEvent 60 72) ∧
    (processBlock ⟨0, 127, []⟩ 1 60 72 [⟨MidiMessage.other [176, 1, 2], -1⟩]).2
      = ⟨MidiMessage.other [176, 1, 2], -1⟩ :: noteOffSweep := by
  have hsweep : allNotesOff [] = noteOffSweep := by
    rw [allNotesOff_eq_append [] (by simp), List.nil_append]
  have h1 : (processBlock ⟨0, 127, []⟩ 1 60 72
        [⟨MidiMessage.other [176, 1, 2], 5⟩, ⟨MidiMessage.other [176, 3, 4], 3⟩]).2
      = noteOffSweep ++
          [⟨MidiMessage.other [176, 3, 4], 3⟩, ⟨MidiMessage.other [176, 1, 2], 5⟩] := by
    rw [(processBlock_output_of_pos _ 1 60 72 _ (by decide)).2.2, if_pos (Or.inl (by decide)),
      hsweep]
    simp only [List.foldl_cons, List.foldl_nil, processEvent_eq_addEvent]
    rw [rewriteMessage_other_bytes, rewriteMessage_other_bytes,
      MidiBuffer.addEvent_eq_append noteOffSweep _ 5
        (fun e he => by rw [(noteOffSweep_samplePosition e he).1]; decide),
      MidiBuffer.addEvent_append_of_le noteOffSweep _ _ 3
        (fun e he => by rw [(noteOffSweep_samplePosition e he).1]; decide)]
    simp [MidiBuffer.addEvent]
  refine ⟨h1, ?_, ?_⟩
  · rw [h1]
    intro h
    have h' := List.append_cancel_left h
    simp [rewriteEvent, rewriteMessage_other_bytes] at h'
  · rw [(processBlock_output_of_pos _ 1 60 72 _ (by decide)).2.2, if_pos (Or.inl (by decide)),
      hsweep]
    simp only [List.foldl_cons, List.foldl_nil, processEvent_eq_addEvent]
    rw [rewriteMessage_other_bytes]
    exact MidiBuffer.addEvent_eq_cons noteOffSweep _ (-1)
      (fun e he => by rw [(noteOffSweep_samplePosition e he).1]; decide)

/-- C3 (amended): in a block with a positive sample count whose rounded live
bounds differ from the cached bounds (in either component) and whose input
events have sample positions that are not negative and do not decrease along
the input, the output of `processBlock` is the note-off sweep followed by the
rewritten versions of the block's input events in their input order; the
sweep has exactly 2048 events, each a NoteOff with velocity 0 at sample
position 0, one per (channel, note) pair in channel-major, note-minor order
(`noteOffSweep`). -/
theorem processBlock_changed_bounds_output (p : MIDIWrapAudioProcessor) (numSamples : Nat)
    (nLowerLimit nUpperLimit : Int) (midiMessages : MidiBuffer)
    (hpos : 0 < numSamples)
    (hchanged : p.lowerLimit ≠ nLowerLimit ∨ p.upperLimit ≠ nUpperLimit)
    (hord : MidiBuffer.Ordered midiMessages)
    (hnonneg : ∀ e ∈ midiMessages, 0 ≤ e.samplePosition) :
    (processBlock p numSamples nLowerLimit nUpperLimit midiMessages).2
        = noteOffSweep ++ midiMessages.map (rewriteEvent nLowerLimit nUpperLimit) ∧
      noteOffSweep.length = 2048 ∧
      ∀ e ∈ noteOffSweep, e.samplePosition = 0 ∧ e.getMessage.isNoteOff = true ∧
        e.getMessage.getVelocity = 0 := by
  refine ⟨?_, noteOffSweep_length, noteOffSweep_samplePosition⟩
  rw [(processBlock_output_of_pos p numSamples nLowerLimit nUpperLimit midiMessages hpos).2.2,
    if_pos hchanged, allNotesOff_eq_append [] (by simp), List.nil_append]
  apply foldl_processEvent_eq_append _ _ _ _ hord
  intro e he x hx
  rw [(noteOffSweep_samplePosition e he).1]
  exact hnonneg x hx

/-- C3 (witness): a block of one NoteOn at sample position 0 and one control
change at sample position 5, with the cached bounds [0, 127] and the live
bounds [60, 72]. -/
theorem processBlock_changed_bounds_output_witness :
    (processBlock ⟨0, 127, []⟩ 1 60 72
        [⟨MidiMessage.rawNoteOn 2 50 90, 0⟩, ⟨MidiMessage.other [176, 1, 2], 5⟩]).2
        = noteOffSweep ++
          [⟨MidiMessage.rawNoteOn 2 50 90, 0⟩, ⟨MidiMessage.other [176, 1, 2], 5⟩].map
            (rewriteEvent 60 72) ∧
      noteOffSweep.length = 2048 ∧
      ∀ e ∈ noteOffSweep, e.samplePosition = 0 ∧ e.getMessage.isNoteOff = true ∧
        e.getMessage.getVelocity = 0 :=
  processBlock_changed_bounds_output ⟨0, 127, []⟩ 1 60 72
    [⟨MidiMessage.rawNoteOn 2 50 90, 0⟩, ⟨MidiMessage.other [176, 1, 2], 5⟩]
    (by decide) (Or.inl (by decide)) (by simp [MidiBuffer.Ordered]) (by simp)

/-- C4 (counterexample): with the bounds [0, 5] (cached and live) a NoteOn of
note 6 on channel 3 with velocity 100 comes out as a NoteOn of note 122, while
`wrap 6 0 5` is -6: no output event carries the note number `wrap 6 0 5`. -/
theorem processBlock_note_number_not_wrap :
    (processBlock ⟨0, 5, []⟩ 1 0 5 [⟨MidiMessage.rawNoteOn 2 6 100, 0⟩]).2
        = [⟨MidiMessage.rawNoteOn 2 122 100, 0⟩] ∧
      wrap 6 0 5 = -6 ∧
      ∀ e ∈ (processBlock ⟨0, 5, []⟩ 1 0 5 [⟨MidiMessage.rawNoteOn 2 6 100, 0⟩]).2,
        e.getMessage.getNoteNumber ≠ wrap 6 0 5 := by
  have hw : wrap 6 0 5 = -6 := by simp [wrap, wrapUp, wrapDown]
  have hout : (processBlock ⟨0, 5, []⟩ 1 0 5 [⟨MidiMessage.rawNoteOn 2 6 100, 0⟩]).2
      = [⟨MidiMessage.rawNoteOn 2 122 100, 0⟩] := by
    have h6 : (((6 : Fin 128) : Nat) : Int) = 6 := rfl
    simp [processBlock, processEvent, MidiMessage.isNoteOn, MidiMessage.getNoteNumber,
      MidiMessage.getChannel, MidiMessage.getVelocity, MidiMessage.noteOn, MidiBuffer.addEvent,
      jlimit, noteByte, h6, hw]
    decide
  refine ⟨hout, hw, ?_⟩
  rw [hout, hw]
  intro e he
  simp only [List.mem_singleton] at he
  rw [he]
  decide

/-- C4 (amended): in a block with a positive sample count, every input event
that is a NoteOn (resp. NoteOff) with note number `k` for which
`wrap k lower upper` lies in [0,127] has in the output an event of the same
kind with the same channel, velocity and sample position and with the note
number `wrap k lower upper`, where `lower`, `upper` are the bounds of the
current block, which are the rounded live bounds. -/
theorem processBlock_note_event_rewritten (p : MIDIWrapAudioProcessor) (numSamples : Nat)
    (nLowerLimit nUpperLimit : Int) (midiMessages : MidiBuffer) (e : MidiMessageMetadata)
    (hpos : 0 < numSamples) (he : e ∈ midiMessages)
    (hnote : e.getMessage.isNoteOn = true ∨ e.getMessage.isNoteOff = true)
    (h0 : 0 ≤ wrap e.getMessage.getNoteNumber nLowerLimit nUpperLimit)
    (h127 : wrap e.getMessage.getNoteNumber nLowerLimit nUpperLimit ≤ 127) :
    (processBlock p numSamples nLowerLimit nUpperLimit midiMessages).1.lowerLimit = nLowerLimit ∧
    (processBlock p numSamples nLowerLimit nUpperLimit midiMessages).1.upperLimit = nUpperLimit ∧
    ∃ e' ∈ (processBlock p numSamples nLowerLimit nUpperLimit midiMessages).2,
      e'.getMessage.isNoteOn = e.getMessage.isNoteOn ∧
      e'.getMessage.isNoteOff = e.getMessage.isNoteOff ∧
      e'.getMessage.getChannel = e.getMessage.getChannel ∧
      e'.getMessage.getVelocity = e.getMessage.getVelocity ∧
      e'.samplePosition = e.samplePosition ∧
      e'.getMessage.getNoteNumber
        = wrap e.getMessage.getNoteNumber nLowerLimit nUpperLimit := by
  obtain ⟨hlo, hup, hout⟩ :=
    processBlock_output_of_pos p numSamples nLowerLimit nUpperLimit midiMessages hpos
  refine ⟨hlo, hup, rewriteEvent nLowerLimit nUpperLimit e, ?_, ?_⟩
  · rw [hout, mem_foldl_processEvent]
    exact Or.inr (List.mem_map_of_mem _ he)
  · obtain ⟨h1, h2, h3, h4, h5⟩ := rewriteMessage_note nLowerLimit nUpperLimit e.getMessage hnote
    refine ⟨h1, h2, h3, h4, rfl, ?_⟩
    simp only [rewriteEvent, h5]
    omega

/-- C4 (witness): with the bounds [60, 72] a NoteOn of note 50 on channel 3
with velocity 90 comes out as the same NoteOn with note 62, and a NoteOn of
note 64 comes out as it went in. -/
theorem processBlock_note_event_rewritten_witness :
    ((processBlock ⟨60, 72, []⟩ 1 60 72 [⟨MidiMessage.rawNoteOn 2 50 90, 7⟩]).1.lowerLimit = 60 ∧
    (processBlock ⟨60, 72, []⟩ 1 60 72 [⟨MidiMessage.rawNoteOn 2 50 90, 7⟩]).1.upperLimit = 72 ∧
    ∃ e' ∈ (processBlock ⟨60, 72, []⟩ 1 60 72 [⟨MidiMessage.rawNoteOn 2 50 90, 7⟩]).2,
      e'.getMessage.isNoteOn = true ∧
      e'.getMessage.isNoteOff = false ∧
      e'.getMessage.getChannel = 3 ∧
      e'.getMessage.getVelocity = 90 ∧
      e'.samplePosition = 7 ∧
      e'.getMessage.getNoteNumber = wrap 50 60 72) ∧
    wrap 50 60 72 = 62 ∧
    (processBlock ⟨60, 72, []⟩ 1 60 72 [⟨MidiMessage.rawNoteOn 2 50 90, 7⟩]).2
      = [⟨MidiMessage.rawNoteOn 2 62 90, 7⟩] ∧
    (processBlock ⟨60, 72, []⟩ 1 60 72 [⟨MidiMessage.rawNoteOn 2 64 90, 7⟩]).2
      = [⟨MidiMessage.rawNoteOn 2 64 90, 7⟩] := by
  have hw : wrap 50 60 72 = 62 := by simp [wrap, wrapUp, wrapDown]
  have hw64 : wrap 64 60 72 = 64 := by simp [wrap, wrapUp, wrapDown]
  refine ⟨processBlock_note_event_rewritten ⟨60, 72, []⟩ 1 60 72
    [⟨MidiMessage.rawNoteOn 2 50 90, 7⟩] ⟨MidiMessage.rawNoteOn 2 50 90, 7⟩
    (by decide) (List.mem_singleton.2 rfl) (Or.inl rfl)
    (by show 0 ≤ wrap 50 60 72; rw [hw]; decide)
    (by show wrap 50 60 72 ≤ 127; rw [hw]; decide), hw, ?_, ?_⟩
  · have h50 : (((50 : Fin 128) : Nat) : Int) = 50 := rfl
    simp [processBlock, processEvent, MidiMessage.isNoteOn, MidiMessage.getNoteNumber,
      MidiMessage.getChannel, MidiMessage.getVelocity, MidiMessage.noteOn, MidiBuffer.addEvent,
      jlimit, noteByte, h50, hw]
    decide
  · have h64 : (((64 : Fin 128) : Nat) : Int) = 64 := rfl
    simp [processBlock, processEvent, MidiMessage.isNoteOn, MidiMessage.getNoteNumber,
      MidiMessage.getChannel, MidiMessage.getVelocity, MidiMessage.noteOn, MidiBuffer.addEvent,
      jlimit, noteByte, h64, hw64]
    decide

/-- C5: for every block (any sample count), every cached-bounds state and
every live bounds pair, each input event that is neither NoteOn nor NoteOff
is in the output of `processBlock` with the same payload and the same sample
position. -/
theorem processBlock_other_event_kept (p : MIDIWrapAudioProcessor) (numSamples : Nat)
    (nLowerLimit nUpperLimit : Int) (midiMessages : MidiBuffer) (e : MidiMessageMetadata)
    (he : e ∈ midiMessages) (hon : e.getMessage.isNoteOn = false)
    (hoff : e.getMessage.isNoteOff = false) :
    e ∈ (processBlock p numSamples nLowerLimit nUpperLimit midiMessages).2 := by
  rcases Nat.eq_zero_or_pos numSamples with h0 | hpos
  · simp [processBlock, h0, he]
  · rw [(processBlock_output_of_pos p numSamples nLowerLimit nUpperLimit midiMessages hpos).2.2,
      mem_foldl_processEvent]
    refine Or.inr (List.mem_map.2 ⟨e, he, ?_⟩)
    simp [rewriteEvent, rewriteMessage_other _ _ _ hon hoff]

/-- C5 (witness): a control change at sample position 5 is in the output of a
block whose bounds changed. -/
theorem processBlock_other_event_kept_witness :
    (⟨MidiMessage.other [176, 1, 2], 5⟩ : MidiMessageMetadata) ∈
      (processBlock ⟨0, 127, []⟩ 1 60 72
        [⟨MidiMessage.rawNoteOn 2 50 90, 0⟩, ⟨MidiMessage.other [176, 1, 2], 5⟩]).2 :=
  processBlock_other_event_kept ⟨0, 127, []⟩ 1 60 72
    [⟨MidiMessage.rawNoteOn 2 50 90, 0⟩, ⟨MidiMessage.other [176, 1, 2], 5⟩]
    ⟨MidiMessage.other [176, 1, 2], 5⟩ (by simp) rfl rfl

/-! ### The pitch codec -/

theorem foldl_hasLetters (text : List Char) (acc : Bool) :
    text.foldl (fun has chr => if !chr.isDigit then true else has) acc
      = (acc || text.any fun chr => !chr.isDigit) := by
  induction text generalizing acc with
  | nil => simp
  | cons c text ih =>
    simp only [List.foldl_cons, ih, List.any_cons]
    cases acc <;> cases c.isDigit <;> simp

theorem hasLetters_eq_any (text : List Char) :
    hasLetters text = text.any fun chr => !chr.isDigit := by
  unfold hasLetters
  rw [foldl_hasLetters]
  rfl

theorem toLower_of_isDigit (c : Char) (h : c.isDigit = true) : c.toLower = c := by
  simp only [Char.isDigit, Bool.and_eq_true, decide_eq_true_eq] at h
  have h1 : c.toNat ≤ 57 := h.2
  simp only [Char.toLower]
  rw [if_neg]
  intro hc
  have h2 := hc.1
  omega

theorem hasLetters_of_digits (s : List Char) (hd : ∀ c ∈ s, c.isDigit = true) :
    hasLetters (s.map Char.toLower) = false := by
  rw [hasLetters_eq_any]
  simp only [List.any_eq_false, List.mem_map, Bool.not_eq_true', Bool.not_eq_false',
    forall_exists_index, and_imp]
  intro c' c hc hcc'
  rw [← hcc', toLower_of_isDigit c (hd c hc)]
  simpa using hd c hc

/-- C2 (the failing input): note 12 is written "C-1", and "C-1" is read back
as 69, not 12. -/
theorem roundtrip_fails_at_twelve :
    valToStr 12 = "C-1" ∧ strToVal (valToStr 12) = some 69 := by
  have h : valToStr 12 = "C-1" := by decide
  refine ⟨h, ?_⟩
  rw [h]
  simp [strToVal, hasLetters, pitchclassState, flatOrSharpState, parseState,
    getFloatValueAsInt, readDigits, stopsNumber, digitsValue]

/-- C8 (counterexample): "A4" is read as 81, not 69. -/
theorem strToVal_A4_ne_69 : strToVal "A4" = some 81 ∧ strToVal "A4" ≠ some 69 := by
  have h : strToVal "A4" = some 81 := by
    simp [strToVal, hasLetters, pitchclassState, flatOrSharpState, parseState,
      getFloatValueAsInt, readDigits, stopsNumber, digitsValue, exactFloat, wrapUp]
  rw [h]
  exact ⟨rfl, by decide⟩

/-- C8 (amended): the pitch name A4 is read as note number 81 in either letter
case, `strToVal "A4" = 81` and `strToVal "a4" = 81`; the name that is read as
69 is A3, in either letter case. -/
theorem strToVal_A4_eq_81 :
    strToVal "A4" = some 81 ∧ strToVal "a4" = some 81 ∧
      strToVal "A3" = some 69 ∧ strToVal "a3" = some 69 := by
  refine ⟨?_, ?_, ?_, ?_⟩ <;>
    simp [strToVal, hasLetters, pitchclassState, flatOrSharpState, parseState,
      getFloatValueAsInt, readDigits, stopsNumber, digitsValue, exactFloat, wrapUp]

/-- C9 (counterexample): "C-1" is read as 69 (the octave -1 meets the test
`newVal == -1`), not as 0. -/
theorem strToVal_C_minus_one_ne_zero :
    strToVal "C-1" = some 69 ∧ strToVal "C-1" ≠ some 0 := by
  have h : strToVal "C-1" = some 69 := by
    simp [strToVal, hasLetters, pitchclassState, flatOrSharpState, parseState,
      getFloatValueAsInt, readDigits, stopsNumber, digitsValue]
  rw [h]
  exact ⟨rfl, by decide⟩

/-- C9 (amended): `strToVal "C-2" = 0`: the pitch name with the negative
octave -2 is read as note number 0 (and note 0 is written "C-2"). -/
theorem strToVal_C_minus_two :
    strToVal "C-2" = some 0 ∧ valToStr 0 = "C-2" := by
  refine ⟨?_, by decide⟩
  simp [strToVal, hasLetters, pitchclassState, flatOrSharpState, parseState,
    getFloatValueAsInt, readDigits, stopsNumber, digitsValue, exactFloat, wrapUp]

/-- C10 (counterexample): "-5" has no alphabetic character, yet it is not read
as the integer -5: its `-` is not a digit, so the pitch-name branch runs and
returns the fallback 69. -/
theorem strToVal_minus_five :
    ("-5".toList.all fun c => !c.isAlpha) = true ∧ strToVal "-5" = some 69 ∧
      strToVal "-5" ≠ some (-5) := by
  have h : strToVal "-5" = some 69 := by
    simp [strToVal, hasLetters, pitchclassState]
  rw [h]
  exact ⟨by decide, rfl, by decide⟩

/-- C10 (amended): for every input string made of decimal digits only (no
sign, no other character) whose decimal value is at most 2^24, `strToVal`
returns that value directly, without entering the pitch-name algorithm; in
particular `strToVal "69" = 69`. -/
theorem strToVal_of_digits (str : String) (hd : ∀ c ∈ str.toList, c.isDigit = true)
    (hv : digitsValue str.toList ≤ 16777216) :
    strToVal str = some (digitsValue str.toList : Int) ∧
      strToVal str = (getIntValue str.toList).bind exactFloat := by
  have hall : str.toList.all Char.isDigit = true := List.all_eq_true.2 hd
  have hget : (getIntValue str.toList).bind exactFloat = some (digitsValue str.toList : Int) := by
    simp only [getIntValue, hall, if_true, Option.some_bind, exactFloat, Int.natAbs_ofNat, hv]
  simp only [strToVal, hasLetters_of_digits str.toList hd, Bool.not_false, if_true, hget,
    and_self]

/-- C10 (witness): the amended claim at "69". -/
theorem strToVal_of_digits_witness :
    (strToVal "69" = some ((digitsValue "69".toList : Nat) : Int) ∧
      strToVal "69" = (getIntValue "69".toList).bind exactFloat) ∧
    digitsValue "69".toList = 69 :=
  ⟨strToVal_of_digits "69" (by decide) (by decide), by decide⟩

set_option maxHeartbeats 4000000 in
/-- Where the round trip holds and where it does not: every note of octave -1
(12 to 23) is read back as 69, every other note in [0,127] as itself. -/
theorem roundtrip_except_octave_minus_one (n : Int) (h0 : 0 ≤ n) (h127 : n ≤ 127) :
    strToVal (valToStr n) = some (if 12 ≤ n ∧ n ≤ 23 then 69 else n) := by
  have e0 : toString (-2 : Int) = "-2" := by decide
  have e1 : toString (-1 : Int) = "-1" := by decide
  have e2 : toString (0 : Int) = "0" := by decide
  have e3 : toString (1 : Int) = "1" := by decide
  have e4 : toString (2 : Int) = "2" := by decide
  have e5 : toString (3 : Int) = "3" := by decide
  have e6 : toString (4 : Int) = "4" := by decide
  have e7 : toString (5 : Int) = "5" := by decide
  have e8 : toString (6 : Int) = "6" := by decide
  have e9 : toString (7 : Int) = "7" := by decide
  have e10 : toString (8 : Int) = "8" := by decide
  interval_cases n <;>
    simp [valToStr, getMidiNoteName, sharpNoteNames, e0, e1, e2, e3, e4, e5, e6, e7, e8, e9, e10,
      strToVal, hasLetters, pitchclassState, flatOrSharpState, parseState,
      getFloatValueAsInt, readDigits, stopsNumber, digitsValue, exactFloat, wrapUp]

/-! ### Further claims about wrap -/

/-- The second loop, once it runs, returns the one value of the residue class
of its argument that lies in (upper - 12, upper]. -/
theorem wrapDown_unique (x upper r : Int) (k : Nat) (hx : upper < x) (hr : r ≤ upper)
    (hr' : upper - 12 < r) (hk : x = r + 12 * k) : wrapDown x upper = r := by
  obtain ⟨h1, h2, j, hj⟩ := wrapDown_spec x upper
  have := h2 hx
  omega

/-- C17: for bounds 0 ≤ lower ≤ upper ≤ 127, `wrap n lower upper` lies in
[lower, upper] for every n in [0,127] if and only if upper - lower ≥ 11; and
when upper - lower < 11 some n in [0,127] has a result below `lower`. -/
theorem wrap_in_range_iff_octave (lower upper : Int)
    (hl : 0 ≤ lower) (hlu : lower ≤ upper) (hu : upper ≤ 127) :
    ((∀ n : Int, 0 ≤ n → n ≤ 127 →
        lower ≤ wrap n lower upper ∧ wrap n lower upper ≤ upper) ↔ 11 ≤ upper - lower) ∧
      (upper - lower < 11 →
        ∃ n : Int, 0 ≤ n ∧ n ≤ 127 ∧ wrap n lower upper < lower) := by
  have hex : upper - lower < 11 →
      ∃ n : Int, 0 ≤ n ∧ n ≤ 127 ∧ wrap n lower upper < lower := by
    intro hnarrow
    by_cases h127 : upper ≤ 126
    · refine ⟨upper + 1, by omega, by omega, ?_⟩
      unfold wrap
      rw [wrapUp_of_ge (by omega), wrapDown_of_gt (by omega), wrapDown_of_le (by omega)]
      omega
    · refine ⟨lower - 1, by omega, by omega, ?_⟩
      unfold wrap
      rw [wrapUp_of_lt (by omega), wrapUp_of_ge (by omega), wrapDown_of_gt (by omega),
        wrapDown_of_le (by omega)]
      omega
  refine ⟨⟨fun hall => ?_, fun hspan n _ _ => ?_⟩, hex⟩
  · by_contra hnot
    obtain ⟨n, h0, h1, hlt⟩ := hex (by omega)
    have := (hall n h0 h1).1
    omega
  · unfold wrap
    obtain ⟨hge, -, -⟩ := wrapUp_spec n lower
    obtain ⟨hle, hgt, -⟩ := wrapDown_spec (wrapUp n lower) upper
    refine ⟨?_, hle⟩
    by_cases hy : wrapUp n lower ≤ upper
    · rw [wrapDown_of_le hy]; exact hge
    · have := hgt (by omega)
      omega

/-- C17 (witness): the bounds [60, 72] span an octave, the bounds [60, 60] do
not. -/
theorem wrap_in_range_iff_octave_witness :
    (((∀ n : Int, 0 ≤ n → n ≤ 127 → (60 : Int) ≤ wrap n 60 72 ∧ wrap n 60 72 ≤ 72) ↔
        (11 : Int) ≤ 72 - 60) ∧
      ((72 : Int) - 60 < 11 → ∃ n : Int, 0 ≤ n ∧ n ≤ 127 ∧ wrap n 60 72 < 60)) ∧
    (((∀ n : Int, 0 ≤ n → n ≤ 127 → (60 : Int) ≤ wrap n 60 60 ∧ wrap n 60 60 ≤ 60) ↔
        (11 : Int) ≤ 60 - 60) ∧
      ((60 : Int) - 60 < 11 → ∃ n : Int, 0 ≤ n ∧ n ≤ 127 ∧ wrap n 60 60 < 60)) :=
  ⟨wrap_in_range_iff_octave 60 72 (by decide) (by decide) (by decide),
   wrap_in_range_iff_octave 60 60 (by decide) (by decide) (by decide)⟩

/-- C18: `wrap` is total, also on inverted ranges. For all integers n, lower,
upper (in any order) both loops come to an end: the first after `a` passes at
a value that is no longer below `lower`, the second after `b` passes at the
returned value, which is no longer above `upper`. -/
theorem wrap_total_le_upper (n lower upper : Int) :
    ∃ a b : Nat, wrapUp n lower = n + 12 * a ∧ ¬ (wrapUp n lower < lower) ∧
      wrap n lower upper = wrapUp n lower - 12 * b ∧ ¬ (wrap n lower upper > upper) ∧
      wrap n lower upper ≤ upper := by
  obtain ⟨hge, -, a, ha⟩ := wrapUp_spec n lower
  obtain ⟨hle, -, b, hb⟩ := wrapDown_spec (wrapUp n lower) upper
  exact ⟨a, b, ha, by omega, hb, by unfold wrap; omega, hle⟩

/-- C19: `wrap` is idempotent for fixed bounds, for all integers n, lower,
upper in any order: `wrap (wrap n lower upper) lower upper = wrap n lower upper`. -/
theorem wrap_idempotent (n lower upper : Int) :
    wrap (wrap n lower upper) lower upper = wrap n lower upper := by
  obtain ⟨hge, -, -⟩ := wrapUp_spec n lower
  obtain ⟨hle, hgt, -⟩ := wrapDown_spec (wrapUp n lower) upper
  have hr : wrap n lower upper = wrapDown (wrapUp n lower) upper := rfl
  by_cases hin : lower ≤ wrap n lower upper
  · unfold wrap at hin ⊢
    rw [wrapUp_of_ge hin, wrapDown_of_le hle]
  · have hran : upper < wrapUp n lower := by
      by_contra hc
      rw [hr, wrapDown_of_le (by omega)] at hin
      exact hin hge
    have hlow := hgt hran
    obtain ⟨hge', hlt', k, hk⟩ := wrapUp_spec (wrap n lower upper) lower
    have hlt'' := hlt' (by omega)
    show wrapDown (wrapUp (wrap n lower upper) lower) upper = wrap n lower upper
    apply wrapDown_unique _ _ _ k _ (by rw [hr]; exact hle) (by rw [hr]; exact hlow) hk
    rw [hr] at hin hk ⊢
    rw [hk]
    have hkpos : 1 ≤ k := by
      rcases Nat.eq_zero_or_pos k with h0 | h0
      · subst h0
        rw [hr] at hge'
        simp at hk
        omega
      · exact h0
    omega

/-! ### Further claims about processBlock -/

theorem MidiBuffer.addEvent_perm (buf : MidiBuffer) (m : MidiMessage) (t : Int) :
    (buf.addEvent m t).Perm (buf ++ [⟨m, t⟩]) := by
  induction buf with
  | nil => exact List.Perm.refl _
  | cons e rest ih =>
    simp only [MidiBuffer.addEvent]
    split
    · exact List.Perm.cons e ih
    · show ([(⟨m, t⟩ : MidiMessageMetadata)] ++ (e :: rest)).Perm (e :: rest ++ [⟨m, t⟩])
      exact List.perm_append_comm

theorem foldl_processEvent_perm (lower upper : Int) (l : List MidiMessageMetadata)
    (out : MidiBuffer) :
    (l.foldl (processEvent lower upper) out).Perm (out ++ l.map (rewriteEvent lower upper)) := by
  induction l generalizing out with
  | nil => simp
  | cons a l ih =>
    simp only [List.foldl_cons, List.map_cons, processEvent_eq_addEvent]
    refine (ih _).trans ?_
    have h := (MidiBuffer.addEvent_perm out (rewriteMessage lower upper a.getMessage)
      a.samplePosition).append_right (l.map (rewriteEvent lower upper))
    simpa [rewriteEvent] using h

/-- The output of a block with a positive sample count, up to the order
`addEvent` puts the events in: the note-off sweep when the bounds changed,
then the rewritten input; its length is the input's, plus 2048 when the bounds
changed. -/
theorem processBlock_output_perm (p : MIDIWrapAudioProcessor) (numSamples : Nat)
    (nLowerLimit nUpperLimit : Int) (midiMessages : MidiBuffer) (hpos : 0 < numSamples) :
    (p.lowerLimit ≠ nLowerLimit ∨ p.upperLimit ≠ nUpperLimit →
      (processBlock p numSamples nLowerLimit nUpperLimit midiMessages).2.Perm
          (noteOffSweep ++ midiMessages.map (rewriteEvent nLowerLimit nUpperLimit)) ∧
        (processBlock p numSamples nLowerLimit nUpperLimit midiMessages).2.length
          = midiMessages.length + 2048) ∧
    (¬ (p.lowerLimit ≠ nLowerLimit ∨ p.upperLimit ≠ nUpperLimit) →
      (processBlock p numSamples nLowerLimit nUpperLimit midiMessages).2.Perm
          (midiMessages.map (rewriteEvent nLowerLimit nUpperLimit)) ∧
        (processBlock p numSamples nLowerLimit nUpperLimit midiMessages).2.length
          = midiMessages.length) := by
  have hout :=
    (processBlock_output_of_pos p numSamples nLowerLimit nUpperLimit midiMessages hpos).2.2
  refine ⟨fun hchanged => ?_, fun hsame => ?_⟩
  · rw [hout, if_pos hchanged, allNotesOff_eq_append [] (by simp), List.nil_append]
    refine ⟨foldl_processEvent_perm _ _ _ _, ?_⟩
    rw [length_foldl_processEvent, noteOffSweep_length]
    omega
  · rw [hout, if_neg hsame]
    refine ⟨by simpa using foldl_processEvent_perm nLowerLimit nUpperLimit midiMessages [], ?_⟩
    rw [length_foldl_processEvent]
    simp

/-- C13: in a block with a positive sample count the note-off sweep is
emitted exactly when the rounded live lower bound differs from the cached one
or the rounded live upper bound differs from the cached one. When they
changed, the output is the sweep together with the rewritten input events
(every sweep event is in it) and has exactly 2048 events more than the input;
when they did not, the output is the rewritten input events and has exactly
as many events as the input. -/
theorem processBlock_flush_iff_changed (p : MIDIWrapAudioProcessor) (numSamples : Nat)
    (nLowerLimit nUpperLimit : Int) (midiMessages : MidiBuffer) (hpos : 0 < numSamples) :
    (p.lowerLimit ≠ nLowerLimit ∨ p.upperLimit ≠ nUpperLimit →
      (processBlock p numSamples nLowerLimit nUpperLimit midiMessages).2.Perm
          (noteOffSweep ++ midiMessages.map (rewriteEvent nLowerLimit nUpperLimit)) ∧
        (∀ e ∈ noteOffSweep,
          e ∈ (processBlock p numSamples nLowerLimit nUpperLimit midiMessages).2) ∧
        (processBlock p numSamples nLowerLimit nUpperLimit midiMessages).2.length
          = midiMessages.length + 2048) ∧
    (¬ (p.lowerLimit ≠ nLowerLimit ∨ p.upperLimit ≠ nUpperLimit) →
      (processBlock p numSamples nLowerLimit nUpperLimit midiMessages).2.Perm
          (midiMessages.map (rewriteEvent nLowerLimit nUpperLimit)) ∧
        (processBlock p numSamples nLowerLimit nUpperLimit midiMessages).2.length
          = midiMessages.length) := by
  obtain ⟨hc, hs⟩ :=
    processBlock_output_perm p numSamples nLowerLimit nUpperLimit midiMessages hpos
  refine ⟨fun hchanged => ?_, hs⟩
  obtain ⟨hperm, hlen⟩ := hc hchanged
  exact ⟨hperm, fun e he => hperm.mem_iff.2 (List.mem_append_left _ he), hlen⟩

/-- C13 (witness): one NoteOn in a block whose live bounds [60, 72] differ
from the cached bounds [0, 127]. -/
theorem processBlock_flush_iff_changed_witness :
    ((0 : Int) ≠ 60 ∨ (127 : Int) ≠ 72 →
      (processBlock ⟨0, 127, []⟩ 1 60 72 [⟨MidiMessage.rawNoteOn 2 50 90, 0⟩]).2.Perm
          (noteOffSweep ++ [⟨MidiMessage.rawNoteOn 2 50 90, 0⟩].map (rewriteEvent 60 72)) ∧
        (∀ e ∈ noteOffSweep,
          e ∈ (processBlock ⟨0, 127, []⟩ 1 60 72 [⟨MidiMessage.rawNoteOn 2 50 90, 0⟩]).2) ∧
        (processBlock ⟨0, 127, []⟩ 1 60 72 [⟨MidiMessage.rawNoteOn 2 50 90, 0⟩]).2.length
          = [(⟨MidiMessage.rawNoteOn 2 50 90, 0⟩ : MidiMessageMetadata)].length + 2048) ∧
    (¬ ((0 : Int) ≠ 60 ∨ (127 : Int) ≠ 72) →
      (processBlock ⟨0, 127, []⟩ 1 60 72 [⟨MidiMessage.rawNoteOn 2 50 90, 0⟩]).2.Perm
          ([⟨MidiMessage.rawNoteOn 2 50 90, 0⟩].map (rewriteEvent 60 72)) ∧
        (processBlock ⟨0, 127, []⟩ 1 60 72 [⟨MidiMessage.rawNoteOn 2 50 90, 0⟩]).2.length
          = [(⟨MidiMessage.rawNoteOn 2 50 90, 0⟩ : MidiMessageMetadata)].length) :=
  processBlock_flush_iff_changed ⟨0, 127, []⟩ 1 60 72 [⟨MidiMessage.rawNoteOn 2 50 90, 0⟩]
    (by decide)

/-- C14: after `processBlock` has handled a block with a positive sample
count the cached bounds are that block's rounded live bounds, whatever the
cache held before; so when a second block with a positive sample count has
the same rounded live bounds, its output is its rewritten input events alone,
as many as its input, without a note-off sweep, and the cache stays as it is. -/
theorem processBlock_cache_follows_live (p : MIDIWrapAudioProcessor)
    (numSamples1 numSamples2 : Nat) (nLowerLimit nUpperLimit : Int)
    (midi1 midi2 : MidiBuffer) (hpos1 : 0 < numSamples1) (hpos2 : 0 < numSamples2) :
    (processBlock p numSamples1 nLowerLimit nUpperLimit midi1).1.lowerLimit = nLowerLimit ∧
    (processBlock p numSamples1 nLowerLimit nUpperLimit midi1).1.upperLimit = nUpperLimit ∧
    (processBlock (processBlock p numSamples1 nLowerLimit nUpperLimit midi1).1
        numSamples2 nLowerLimit nUpperLimit midi2).2
      = midi2.foldl (processEvent nLowerLimit nUpperLimit) [] ∧
    (processBlock (processBlock p numSamples1 nLowerLimit nUpperLimit midi1).1
        numSamples2 nLowerLimit nUpperLimit midi2).2.Perm
      (midi2.map (rewriteEvent nLowerLimit nUpperLimit)) ∧
    (processBlock (processBlock p numSamples1 nLowerLimit nUpperLimit midi1).1
        numSamples2 nLowerLimit nUpperLimit midi2).2.length = midi2.length ∧
    (processBlock (processBlock p numSamples1 nLowerLimit nUpperLimit midi1).1
        numSamples2 nLowerLimit nUpperLimit midi2).1.lowerLimit = nLowerLimit ∧
    (processBlock (processBlock p numSamples1 nLowerLimit nUpperLimit midi1).1
        numSamples2 nLowerLimit nUpperLimit midi2).1.upperLimit = nUpperLimit := by
  obtain ⟨hlo, hup, -⟩ :=
    processBlock_output_of_pos p numSamples1 nLowerLimit nUpperLimit midi1 hpos1
  have hsame : ¬ ((processBlock p numSamples1 nLowerLimit nUpperLimit midi1).1.lowerLimit
      ≠ nLowerLimit ∨
      (processBlock p numSamples1 nLowerLimit nUpperLimit midi1).1.upperLimit ≠ nUpperLimit) := by
    rw [hlo, hup]; simp
  obtain ⟨hlo2, hup2, hout2⟩ :=
    processBlock_output_of_pos (processBlock p numSamples1 nLowerLimit nUpperLimit midi1).1
      numSamples2 nLowerLimit nUpperLimit midi2 hpos2
  obtain ⟨hperm, hlen⟩ :=
    (processBlock_output_perm (processBlock p numSamples1 nLowerLimit nUpperLimit midi1).1
      numSamples2 nLowerLimit nUpperLimit midi2 hpos2).2 hsame
  refine ⟨hlo, hup, ?_, hperm, hlen, hlo2, hup2⟩
  rw [hout2, if_neg hsame]

/-- C14 (witness): two blocks of one NoteOn each with the live bounds
[60, 72], the first met with the cached bounds [0, 127]. -/
theorem processBlock_cache_follows_live_witness :
    (processBlock ⟨0, 127, []⟩ 1 60 72 [⟨MidiMessage.rawNoteOn 2 50 90, 0⟩]).1.lowerLimit = 60 ∧
    (processBlock ⟨0, 127, []⟩ 1 60 72 [⟨MidiMessage.rawNoteOn 2 50 90, 0⟩]).1.upperLimit = 72 ∧
    (processBlock (processBlock ⟨0, 127, []⟩ 1 60 72 [⟨MidiMessage.rawNoteOn 2 50 90, 0⟩]).1
        1 60 72 [⟨MidiMessage.rawNoteOn 2 64 90, 3⟩]).2
      = [(⟨MidiMessage.rawNoteOn 2 64 90, 3⟩ : MidiMessageMetadata)].foldl
          (processEvent 60 72) [] ∧
    (processBlock (processBlock ⟨0, 127, []⟩ 1 60 72 [⟨MidiMessage.rawNoteOn 2 50 90, 0⟩]).1
        1 60 72 [⟨MidiMessage.rawNoteOn 2 64 90, 3⟩]).2.Perm
      ([⟨MidiMessage.rawNoteOn 2 64 90, 3⟩].map (rewriteEvent 60 72)) ∧
    (processBlock (processBlock ⟨0, 127, []⟩ 1 60 72 [⟨MidiMessage.rawNoteOn 2 50 90, 0⟩]).1
        1 60 72 [⟨MidiMessage.rawNoteOn 2 64 90, 3⟩]).2.length
      = [(⟨MidiMessage.rawNoteOn 2 64 90, 3⟩ : MidiMessageMetadata)].length ∧
    (processBlock (processBlock ⟨0, 127, []⟩ 1 60 72 [⟨MidiMessage.rawNoteOn 2 50 90, 0⟩]).1
        1 60 72 [⟨MidiMessage.rawNoteOn 2 64 90, 3⟩]).1.lowerLimit = 60 ∧
    (processBlock (processBlock ⟨0, 127, []⟩ 1 60 72 [⟨MidiMessage.rawNoteOn 2 50 90, 0⟩]).1
        1 60 72 [⟨MidiMessage.rawNoteOn 2 64 90, 3⟩]).1.upperLimit = 72 :=
  processBlock_cache_follows_live ⟨0, 127, []⟩ 1 1 60 72
    [⟨MidiMessage.rawNoteOn 2 50 90, 0⟩] [⟨MidiMessage.rawNoteOn 2 64 90, 3⟩]
    (by decide) (by decide)

/-- C20: when the sample count of a block is 0, `processBlock` returns before
any MIDI handling: the event stream comes back exactly as received and the
processor state, the cached bounds with it, is unchanged, even if the live
bounds differ from the cache. If they do differ, the next block with a
positive sample count (and those live bounds) emits the note-off sweep: its
output is the sweep together with its rewritten input events, 2048 events
more than its input, and the cache then holds the live bounds. -/
theorem processBlock_zero_samples (p : MIDIWrapAudioProcessor)
    (nLowerLimit nUpperLimit : Int) (midi0 : MidiBuffer) (numSamples : Nat)
    (midi1 : MidiBuffer) (hpos : 0 < numSamples)
    (hchanged : p.lowerLimit ≠ nLowerLimit ∨ p.upperLimit ≠ nUpperLimit) :
    processBlock p 0 nLowerLimit nUpperLimit midi0 = (p, midi0) ∧
    (processBlock (processBlock p 0 nLowerLimit nUpperLimit midi0).1
        numSamples nLowerLimit nUpperLimit midi1).2.Perm
      (noteOffSweep ++ midi1.map (rewriteEvent nLowerLimit nUpperLimit)) ∧
    (∀ e ∈ noteOffSweep, e ∈ (processBlock (processBlock p 0 nLowerLimit nUpperLimit midi0).1
        numSamples nLowerLimit nUpperLimit midi1).2) ∧
    (processBlock (processBlock p 0 nLowerLimit nUpperLimit midi0).1
        numSamples nLowerLimit nUpperLimit midi1).2.length = midi1.length + 2048 ∧
    (processBlock (processBlock p 0 nLowerLimit nUpperLimit midi0).1
        numSamples nLowerLimit nUpperLimit midi1).1.lowerLimit = nLowerLimit ∧
    (processBlock (processBlock p 0 nLowerLimit nUpperLimit midi0).1
        numSamples nLowerLimit nUpperLimit midi1).1.upperLimit = nUpperLimit := by
  have h0 : processBlock p 0 nLowerLimit nUpperLimit midi0 = (p, midi0) := by
    simp [processBlock]
  rw [h0]
  obtain ⟨hperm, hlen⟩ :=
    (processBlock_output_perm p numSamples nLowerLimit nUpperLimit midi1 hpos).1 hchanged
  obtain ⟨hlo, hup, -⟩ :=
    processBlock_output_of_pos p numSamples nLowerLimit nUpperLimit midi1 hpos
  exact ⟨rfl, hperm, fun e he => hperm.mem_iff.2 (List.mem_append_left _ he), hlen, hlo, hup⟩

/-- C20 (witness): an empty block with the live bounds [60, 72] against the
cached bounds [0, 127], followed by a block of one sample. -/
theorem processBlock_zero_samples_witness :
    processBlock ⟨0, 127, []⟩ 0 60 72 [⟨MidiMessage.rawNoteOn 2 50 90, 0⟩]
      = (⟨0, 127, []⟩, [⟨MidiMessage.rawNoteOn 2 50 90, 0⟩]) ∧
    (processBlock (processBlock ⟨0, 127, []⟩ 0 60 72 [⟨MidiMessage.rawNoteOn 2 50 90, 0⟩]).1
        1 60 72 []).2.Perm (noteOffSweep ++ ([] : MidiBuffer).map (rewriteEvent 60 72)) ∧
    (∀ e ∈ noteOffSweep,
      e ∈ (processBlock
        (processBlock ⟨0, 127, []⟩ 0 60 72 [⟨MidiMessage.rawNoteOn 2 50 90, 0⟩]).1
        1 60 72 []).2) ∧
    (processBlock (processBlock ⟨0, 127, []⟩ 0 60 72 [⟨MidiMessage.rawNoteOn 2 50 90, 0⟩]).1
        1 60 72 []).2.length = ([] : MidiBuffer).length + 2048 ∧
    (processBlock (processBlock ⟨0, 127, []⟩ 0 60 72 [⟨MidiMessage.rawNoteOn 2 50 90, 0⟩]).1
        1 60 72 []).1.lowerLimit = 60 ∧
    (processBlock (processBlock ⟨0, 127, []⟩ 0 60 72 [⟨MidiMessage.rawNoteOn 2 50 90, 0⟩]).1
        1 60 72 []).1.upperLimit = 72 :=
  processBlock_zero_samples ⟨0, 127, []⟩ 60 72 [⟨MidiMessage.rawNoteOn 2 50 90, 0⟩] 1 []
    (by decide) (Or.inl (by decide))

/-! ### Further claims about the pitch codec -/

theorem toLower_not_isDigit (c : Char) (h : c.isDigit = false) : c.toLower.isDigit = false := by
  by_cases hup : c.toNat ≥ 65 ∧ c.toNat ≤ 90
  · simp only [Char.toLower, if_pos hup]
    obtain ⟨h1, h2⟩ := hup
    generalize c.toNat = n at h1 h2
    interval_cases n <;> rfl
  · simp only [Char.toLower, if_neg hup]
    exact h

theorem hasLetters_of_non_digit (s : List Char) (h : ∃ x ∈ s, x.isDigit = false) :
    hasLetters (s.map Char.toLower) = true := by
  rw [hasLetters_eq_any]
  obtain ⟨x, hx, hd⟩ := h
  simp only [List.any_eq_true, List.mem_map, Bool.not_eq_true']
  exact ⟨x.toLower, ⟨x, hx, rfl⟩, toLower_not_isDigit x hd⟩

/-- C11 (the failing input): "C9" goes through the state `Parse`, which
returns `val` as it is: 0 + 24 + 9 * 12 = 132, above 127. -/
theorem strToVal_C9_above_range :
    strToVal "C9" = some 132 ∧ ¬ ((132 : Int) ≤ 127) := by
  refine ⟨?_, by decide⟩
  simp [strToVal, hasLetters, pitchclassState, flatOrSharpState, parseState,
    getFloatValueAsInt, readDigits, stopsNumber, digitsValue, exactFloat, wrapUp]

/-- C12: for every input string that has at least one character that is not a
digit and whose first character, lowercased, is none of a, b, c, d, e, f, g,
`strToVal` returns the fallback 69; in particular `strToVal "zz" = 69`. -/
theorem strToVal_fallback_of_first_char (str : String) (c : Char) (rest : List Char)
    (hstr : str.toList = c :: rest) (hnd : ∃ x ∈ str.toList, x.isDigit = false)
    (hc : c.toLower ∉ ['a', 'b', 'c', 'd', 'e', 'f', 'g']) :
    strToVal str = some 69 := by
  have hl := hasLetters_of_non_digit str.toList hnd
  simp only [List.mem_cons, List.mem_singleton, List.not_mem_nil, or_false, not_or] at hc
  obtain ⟨ha, hb, hc', hd, he, hf, hg⟩ := hc
  simp only [strToVal, hl, Bool.not_true, Bool.false_eq_true, if_false]
  rw [hstr]
  simp [pitchclassState, ha, hb, hc', hd, he, hf, hg]

/-- C12 (witness): the claim at "zz". -/
theorem strToVal_fallback_of_first_char_witness : strToVal "zz" = some 69 :=
  strToVal_fallback_of_first_char "zz" 'z' ['z'] rfl ⟨'z', by decide, by decide⟩ (by decide)

/-- C15 (the failing input): for "C-1" the formula gives
0 + 0 + 24 + 12 * (-1) = 12, which is at most 127, but `strToVal` returns 69;
for "C#-2" the formula gives 1 and so does `strToVal`. -/
theorem strToVal_formula_fails_at_octave_minus_one :
    (0 + 0 + 24 + 12 * (-1) : Int) = 12 ∧ strToVal "C-1" = some 69 ∧
      (0 + 1 + 24 + 12 * (-2) : Int) = 1 ∧ strToVal "C#-2" = some 1 := by
  refine ⟨by decide, ?_, by decide, ?_⟩ <;>
    simp [strToVal, hasLetters, pitchclassState, flatOrSharpState, parseState,
      getFloatValueAsInt, readDigits, stopsNumber, digitsValue, exactFloat, wrapUp]

/-- C16 (the failing inputs): "Cx" and "G#?" have no number after the letter
and the accidental; the octave is then read as 0 and `strToVal` returns
0 + 24 = 24 and 7 + 1 + 24 = 32, not the fallback 69. -/
theorem strToVal_no_fallback_without_number :
    strToVal "Cx" = some 24 ∧ strToVal "G#?" = some 32 := by
  constructor <;>
    simp [strToVal, hasLetters, pitchclassState, flatOrSharpState, parseState,
      getFloatValueAsInt, readDigits, stopsNumber, digitsValue, exactFloat, wrapUp]

/-! ### The pitch-name branch on well-formed names -/

theorem readDigits_of_digits (ds : List Char) (hdig : ∀ c ∈ ds, c.isDigit = true)
    (hbound : digitsValue ds ≤ 16777216) : readDigits ds = some (digitsValue ds : Int) := by
  have h1 : ds.takeWhile Char.isDigit = ds := List.takeWhile_eq_self_iff.2 hdig
  have h2 : ds.dropWhile Char.isDigit = [] := List.dropWhile_eq_nil_iff.2 hdig
  simp [readDigits, h1, h2, stopsNumber, hbound]

theorem getFloatValueAsInt_signed (sign ds : List Char) (sgn : Int)
    (hsign : (sign, sgn) ∈ [([], (1 : Int)), (['-'], -1), (['+'], 1)])
    (hne : ds ≠ []) (hdig : ∀ c ∈ ds, c.isDigit = true)
    (hbound : digitsValue ds ≤ 16777216) :
    getFloatValueAsInt (sign ++ ds) = some (sgn * (digitsValue ds : Int)) := by
  have hr := readDigits_of_digits ds hdig hbound
  simp only [List.mem_cons, Prod.mk.injEq, List.mem_singleton, List.not_mem_nil, or_false]
    at hsign
  rcases hsign with ⟨rfl, rfl⟩ | ⟨rfl, rfl⟩ | ⟨rfl, rfl⟩
  · cases ds with
    | nil => exact absurd rfl hne
    | cons d ds' =>
      have hd : d.isDigit = true := hdig d (List.mem_cons_self _ _)
      have hm : d ≠ '-' := by intro h; rw [h] at hd; exact absurd hd (by decide)
      have hp : d ≠ '+' := by intro h; rw [h] at hd; exact absurd hd (by decide)
      simp only [List.nil_append, one_mul]
      rw [← hr]
      unfold getFloatValueAsInt
      split
      · rename_i heq; exact absurd (List.cons.inj heq).1 hm
      · rename_i heq; exact absurd (List.cons.inj heq).1 hp
      · rfl
  · simp [getFloatValueAsInt, hr]
  · simp [getFloatValueAsInt, hr]

theorem parseState_signed (text : List Char) (val : Int) (i : Nat) (sign ds : List Char)
    (sgn : Int) (hsign : (sign, sgn) ∈ [([], (1 : Int)), (['-'], -1), (['+'], 1)])
    (hne : ds ≠ []) (hdig : ∀ c ∈ ds, c.isDigit = true)
    (hbound : digitsValue ds ≤ 16777216) (hdrop : text.drop i = sign ++ ds) :
    parseState text val i
      = if sgn * (digitsValue ds : Int) = -1 then some 69
        else exactFloat (wrapUp (val + (24 + sgn * (digitsValue ds : Int) * 12)) 0) := by
  have hi : i < text.length := by
    by_contra hc
    have : text.drop i = [] := List.drop_eq_nil_iff.2 (by omega)
    rw [this] at hdrop
    exact hne (List.append_eq_nil.1 hdrop.symm).2
  simp only [parseState, if_pos hi, hdrop,
    getFloatValueAsInt_signed sign ds sgn hsign hne hdig hbound]

theorem flatOrSharpState_name (l0 : Char) (val : Int) (acc : List Char) (a : Int)
    (sign ds : List Char) (sgn : Int)
    (hacc : (acc, a) ∈ [([], (0 : Int)), (['#'], 1), (['b'], -1)])
    (hsign : (sign, sgn) ∈ [([], (1 : Int)), (['-'], -1), (['+'], 1)])
    (hne : ds ≠ []) (hdig : ∀ c ∈ ds, c.isDigit = true)
    (hbound : digitsValue ds ≤ 16777216) :
    flatOrSharpState (l0 :: (acc ++ (sign ++ ds))) val 1
      = if sgn * (digitsValue ds : Int) = -1 then some 69
        else exactFloat (wrapUp (val + a + (24 + sgn * (digitsValue ds : Int) * 12)) 0) := by
  have hacc' := hacc
  simp only [List.mem_cons, Prod.mk.injEq, List.mem_singleton, List.not_mem_nil, or_false]
    at hacc'
  rcases hacc' with ⟨rfl, rfl⟩ | ⟨rfl, rfl⟩ | ⟨rfl, rfl⟩
  · have hp := parseState_signed (l0 :: (sign ++ ds)) val 1 sign ds sgn hsign hne hdig hbound
      (by simp)
    have hlen : 1 < (l0 :: (sign ++ ds)).length := by
      cases ds with
      | nil => exact absurd rfl hne
      | cons d ds' => simp
    have hchr : (l0 :: (sign ++ ds))[1] ≠ '#' ∧ (l0 :: (sign ++ ds))[1] ≠ 'b' := by
      have hsign' := hsign
      simp only [List.mem_cons, Prod.mk.injEq, List.mem_singleton, List.not_mem_nil, or_false]
        at hsign'
      rcases hsign' with ⟨rfl, rfl⟩ | ⟨rfl, rfl⟩ | ⟨rfl, rfl⟩
      · cases ds with
        | nil => exact absurd rfl hne
        | cons d ds' =>
          have hd : d.isDigit = true := hdig d (List.mem_cons_self _ _)
          simp only [List.nil_append, List.getElem_cons_succ, List.getElem_cons_zero]
          constructor <;> intro h <;> rw [h] at hd <;> exact absurd hd (by decide)
      · simp
      · simp
    simp only [List.nil_append, add_zero] at hp ⊢
    simp only [flatOrSharpState, hlen, dite_true, hchr.1, hchr.2, if_false, hp]
  · have hp := parseState_signed (l0 :: '#' :: (sign ++ ds)) (val + 1) 2 sign ds sgn hsign hne
      hdig hbound (by simp)
    simp only [List.cons_append, List.nil_append] at hp ⊢
    simp [flatOrSharpState, hp]
  · have hp := parseState_signed (l0 :: 'b' :: (sign ++ ds)) (val - 1) 2 sign ds sgn hsign hne
      hdig hbound (by simp)
    simp only [List.cons_append, List.nil_append, sub_eq_add_neg] at hp ⊢
    simp [flatOrSharpState, hp, sub_eq_add_neg]

/-- What `strToVal` returns on a well-formed pitch name: a letter A to G in
either case (index `idx`), an optional accidental `#` or `b` (value `a`), and
an octave written as an optional sign and decimal digits (value
`sgn * digitsValue ds`, digits up to 2^24). The octave -1 gives the fallback
69; every other octave gives `idx + a + 24 + 12 * octave`, raised by the first
loop of `wrap` with lower bound 0 until it is not negative. -/
theorem strToVal_pitch_name (str : String) (L : Char) (idx : Int) (acc : List Char) (a : Int)
    (sign ds : List Char) (sgn : Int)
    (hL : (L.toLower, idx) ∈
      [('c', (0 : Int)), ('d', 2), ('e', 4), ('f', 5), ('g', 7), ('a', 9), ('b', 11)])
    (hacc : (acc, a) ∈ [([], (0 : Int)), (['#'], 1), (['b'], -1)])
    (hsign : (sign, sgn) ∈ [([], (1 : Int)), (['-'], -1), (['+'], 1)])
    (hne : ds ≠ []) (hdig : ∀ c ∈ ds, c.isDigit = true)
    (hbound : digitsValue ds ≤ 16777216)
    (hstr : str.toList = L :: (acc ++ (sign ++ ds))) :
    strToVal str
      = if sgn * (digitsValue ds : Int) = -1 then some 69
        else exactFloat (wrapUp (idx + a + (24 + sgn * (digitsValue ds : Int) * 12)) 0) := by
  have hmapds : ds.map Char.toLower = ds := by
    conv_rhs => rw [← List.map_id ds]
    exact List.map_congr_left fun c hc => toLower_of_isDigit c (hdig c hc)
  have hmapacc : acc.map Char.toLower = acc := by
    simp only [List.mem_cons, Prod.mk.injEq, List.mem_singleton, List.not_mem_nil, or_false]
      at hacc
    rcases hacc with ⟨rfl, -⟩ | ⟨rfl, -⟩ | ⟨rfl, -⟩ <;> rfl
  have hmapsign : sign.map Char.toLower = sign := by
    simp only [List.mem_cons, Prod.mk.injEq, List.mem_singleton, List.not_mem_nil, or_false]
      at hsign
    rcases hsign with ⟨rfl, -⟩ | ⟨rfl, -⟩ | ⟨rfl, -⟩ <;> rfl
  have htext : str.toList.map Char.toLower = L.toLower :: (acc ++ (sign ++ ds)) := by
    rw [hstr]
    simp only [List.map_cons, List.map_append, hmapds, hmapacc, hmapsign]
  have hfs := flatOrSharpState_name L.toLower idx acc a sign ds sgn hacc hsign hne hdig hbound
  have hletters : hasLetters (L.toLower :: (acc ++ (sign ++ ds))) = true := by
    rw [hasLetters_eq_any, List.any_cons]
    simp only [List.mem_cons, Prod.mk.injEq, List.mem_singleton, List.not_mem_nil, or_false]
      at hL
    rcases hL with ⟨h, -⟩ | ⟨h, -⟩ | ⟨h, -⟩ | ⟨h, -⟩ | ⟨h, -⟩ | ⟨h, -⟩ | ⟨h, -⟩ <;>
      rw [h] <;> rfl
  simp only [strToVal, htext, hletters, Bool.not_true, Bool.false_eq_true, if_false]
  rw [← hfs]
  simp only [List.mem_cons, Prod.mk.injEq, List.mem_singleton, List.not_mem_nil, or_false]
    at hL
  rcases hL with ⟨h, rfl⟩ | ⟨h, rfl⟩ | ⟨h, rfl⟩ | ⟨h, rfl⟩ | ⟨h, rfl⟩ | ⟨h, rfl⟩ | ⟨h, rfl⟩ <;>
    rw [h] <;> simp [pitchclassState]

end MIDIWrap
